import Mathlib

/-!
Verification of the pitch-benchmark evaluation engine
(`pitch_benchmark.py`): a shallow embedding of the metric primitives,
the smoothness analyzer's continuity-break computation, the threshold
calibrator and the per-algorithm evaluator, together with theorems
settling the specification claims.

Conventions of the embedding:
* NumPy float arrays become `List ℝ` (or `List ℚ` where the source
  only ever produces rational values, so that the functions stay
  executable); boolean arrays become `List Bool`.
* The IEEE "NaN" sentinel becomes `Option`'s `none`; a Python
  exception becomes `Except.error` (for the length-mismatch check) or
  an `Option`-returning collaborator (for algorithm failures).
* `np.mean` of a boolean array becomes `countP` divided by length;
  division by zero follows Lean's `x / 0 = 0` convention, which is
  only ever reached in branches the source guards against.
-/

namespace PitchBenchmark

/-! ## Definitions -/

/-! ### Voicing detection (`evaluate_voicing_detection`) -/

/-- Result record of `evaluate_voicing_detection`. The second field
keeps the source's name `recall`; it is written with guillemets
because Mathlib reserves the bare word as a command token. -/
structure VoicingMetrics where
  precision : ℚ
  «recall» : ℚ
  f1 : ℚ
deriving DecidableEq, Repr

/-- Count of frames predicted voiced and truly voiced
(`np.sum(pred_voiced & true_voiced)`). -/
def truePos (pred_voiced true_voiced : List Bool) : ℕ :=
  (pred_voiced.zip true_voiced).countP fun x => x.1 && x.2

/-- Count of frames predicted voiced but truly unvoiced
(`np.sum(pred_voiced & ~true_voiced)`). -/
def falsePos (pred_voiced true_voiced : List Bool) : ℕ :=
  (pred_voiced.zip true_voiced).countP fun x => x.1 && !x.2

/-- Count of frames predicted unvoiced but truly voiced
(`np.sum(~pred_voiced & true_voiced)`). -/
def falseNeg (pred_voiced true_voiced : List Bool) : ℕ :=
  (pred_voiced.zip true_voiced).countP fun x => !x.1 && x.2

/-- Precision/recall/F1 from raw TP/FP/FN counts, with the source's
zero-denominator policy: a ratio with zero denominator is `0.0`, and
F1 is `0.0` when precision + recall is zero. -/
def metricsOfCounts (tp fp fn : ℕ) : VoicingMetrics :=
  let precision : ℚ := if 0 < tp + fp then (tp : ℚ) / ((tp : ℚ) + (fp : ℚ)) else 0
  let «recall» : ℚ := if 0 < tp + fn then (tp : ℚ) / ((tp : ℚ) + (fn : ℚ)) else 0
  let f1 : ℚ :=
    if precision + «recall» = 0 then 0
    else 2 * precision * «recall» / (precision + «recall»)
  ⟨precision, «recall», f1⟩

/-- Embedding of `evaluate_voicing_detection`: TP/FP/FN counts via
frame-wise boolean combinations, then the precision/recall/F1 formulas. -/
def evaluate_voicing_detection (pred_voiced true_voiced : List Bool) : VoicingMetrics :=
  metricsOfCounts (truePos pred_voiced true_voiced)
    (falsePos pred_voiced true_voiced) (falseNeg pred_voiced true_voiced)

/-! ### Pitch accuracy (`evaluate_pitch_accuracy`) -/

/-- Machine epsilon `np.finfo(float).eps` of IEEE double precision,
used by the source to guard divisions. -/
noncomputable def machineEps : ℝ := 2 ^ (-(52 : ℤ))

/-- Python's float modulo: `a % b = a - b * floor(a / b)`. -/
noncomputable def fmod (a b : ℝ) : ℝ := a - b * (⌊a / b⌋ : ℤ)

/-- Absolute cents difference between a predicted and a true
frequency: `abs(1200 * log2(pred / (true + eps)))`. -/
noncomputable def centsDiff (p t : ℝ) : ℝ :=
  |1200 * Real.logb 2 (p / (t + machineEps))|

/-- Chroma folding of a cents difference: wrap modulo 1200, then take
the shortest circular distance `min(x, 1200 - x)`. -/
noncomputable def foldCents (c : ℝ) : ℝ :=
  min (fmod c 1200) (1200 - fmod c 1200)

/-- The octave-error predicate of a frame: relative Hz error above 40%
or cents difference inside the near-octave band `(1100, 1300)`. -/
noncomputable def octaveError (p t : ℝ) : Bool :=
  decide (0.4 < |p - t| / (t + machineEps)) ||
    (decide (1100 < centsDiff p t) && decide (centsDiff p t < 1300))

/-- Result record of `evaluate_pitch_accuracy`; `none` models the NaN
the source returns when no frame is valid. -/
structure PitchMetrics where
  rmse : Option ℝ
  cents_error : Option ℝ
  rpa : Option ℝ
  rca : Option ℝ
  octave_error_rate : Option ℝ
  gross_error_rate : Option ℝ
  valid_frames : ℕ

/-- Boolean-mask selection `(pitch_pred[valid_mask], pitch_true[valid_mask])`
as a single list of pairs. -/
def maskedPairs (pitch_pred pitch_true : List ℝ) (valid_mask : List Bool) :
    List (ℝ × ℝ) :=
  ((pitch_pred.zip pitch_true).zip valid_mask).filterMap
    fun x => if x.2 then some x.1 else none

/-- Embedding of `evaluate_pitch_accuracy`: raises (`Except.error`) on
a length mismatch, returns the all-NaN record when the mask selects no
frame, and otherwise computes RMSE, mean cents error, RPA, RCA,
octave-error rate and gross-error rate over the mask-selected frames. -/
noncomputable def evaluate_pitch_accuracy (pitch_pred pitch_true : List ℝ)
    (valid_mask : List Bool) (epsilon gross_error_threshold : ℝ) :
    Except String PitchMetrics :=
  if pitch_pred.length ≠ pitch_true.length then
    .error "Length mismatch"
  else if valid_mask.any id then
    let pairs := maskedPairs pitch_pred pitch_true valid_mask
    let n : ℝ := pairs.length
    let cents := pairs.map fun x => centsDiff x.1 x.2
    .ok
      { rmse := some (Real.sqrt ((pairs.map fun x => (x.1 - x.2) ^ 2).sum / n))
        cents_error := some (cents.sum / n)
        rpa := some ((cents.countP fun c => decide (c < epsilon)) / n)
        rca := some ((cents.countP fun c => decide (foldCents c < epsilon)) / n)
        octave_error_rate := some ((pairs.countP fun x => octaveError x.1 x.2) / n)
        gross_error_rate :=
          some ((cents.countP fun c => decide (gross_error_threshold < c)) / n)
        valid_frames := valid_mask.countP id }
  else
    .ok ⟨none, none, none, none, none, none, 0⟩

/-! ### Continuity breaks (`evaluate_pitch_smoothness`, second metric)

The source labels maximal contiguous true-voiced runs with
`scipy.ndimage.label` and turns them into slices with `find_objects`;
`trueRuns` reproduces that decomposition as `(start, stop)` index
pairs in left-to-right order. -/

/-- Left-to-right scan producing the maximal runs of `true` values.
`i` is the index of the head of the remaining list, `st` the start
index of the currently open run, if any. -/
def trueRunsAux : List Bool → ℕ → Option ℕ → List (ℕ × ℕ)
  | [], _, none => []
  | [], i, some s => [(s, i)]
  | true :: bs, i, none => trueRunsAux bs (i + 1) (some i)
  | true :: bs, i, some s => trueRunsAux bs (i + 1) (some s)
  | false :: bs, i, none => trueRunsAux bs (i + 1) none
  | false :: bs, i, some s => (s, i) :: trueRunsAux bs (i + 1) none

/-- Maximal contiguous runs of `true` in a boolean mask, as
`(start, stop)` pairs with `stop` exclusive, in order of appearance. -/
def trueRuns (mask : List Bool) : List (ℕ × ℕ) := trueRunsAux mask 0 none

/-- A ground-truth segment counts as broken when some predicted frame
inside it is unvoiced (`not np.all(pred_voicing[actual_slice])`). -/
def segmentBroken (pred_voicing : List Bool) (r : ℕ × ℕ) : Bool :=
  !((pred_voicing.drop r.1).take (r.2 - r.1)).all id

/-- Embedding of the continuity-breaks computation of
`evaluate_pitch_smoothness`: keep ground-truth runs longer than one
frame, count the broken ones, return the proportion, or NaN (`none`)
when no run qualifies. -/
def continuity_breaks (pred_voicing true_voicing : List Bool) : Option ℚ :=
  let segs := (trueRuns true_voicing).filter fun r => decide (1 < r.2 - r.1)
  if segs.isEmpty then none
  else some (((segs.countP (segmentBroken pred_voicing) : ℕ) : ℚ) / (segs.length : ℚ))

/-! ### Threshold calibration (`optimize_thresholds`)

The calibrator only consumes the predicted voicing mask of
`extract_pitch(audio, threshold)`, so an algorithm is modelled as a
function from a threshold and a validation sample to an optional
voicing mask; `none` models a raised exception, which the source
catches, logs and skips. The validation subset is taken as given (its
random draw is the caller's seeded shuffle). In exact rational
arithmetic a mean of F1 scores is never NaN, so the source's
defensive `np.isnan` skip has no analogue and a candidate is skipped
exactly when it yields no per-file score. -/

/-- An algorithm as seen by the calibrator. -/
structure CalibAlgo (σ : Type) where
  name : String
  extract_pitch : ℚ → σ → Option (List Bool)

/-- Per-file F1 scores of one candidate threshold over the validation
samples, skipping samples whose extraction fails. -/
def fileF1s {σ : Type} (samples : List σ) (true_voicing : σ → List Bool)
    (extract : ℚ → σ → Option (List Bool)) (threshold : ℚ) : List ℚ :=
  samples.filterMap fun s =>
    (extract threshold s).map fun pv =>
      (evaluate_voicing_detection pv (true_voicing s)).f1

/-- Mean per-file F1 of a candidate threshold; `none` when the
candidate produced no score at all and is skipped. -/
def candidateMeanF1 {σ : Type} (samples : List σ) (true_voicing : σ → List Bool)
    (extract : ℚ → σ → Option (List Bool)) (threshold : ℚ) : Option ℚ :=
  let f1s := fileF1s samples true_voicing extract threshold
  if f1s.isEmpty then none else some (f1s.sum / (f1s.length : ℚ))

/-- One iteration of the source's candidate loop, carried state
`(best_f1, best_threshold)`. -/
def thresholdStep {σ : Type} (samples : List σ) (true_voicing : σ → List Bool)
    (extract : ℚ → σ → Option (List Bool)) (best : ℚ × Option ℚ)
    (threshold : ℚ) : ℚ × Option ℚ :=
  let f1s := fileF1s samples true_voicing extract threshold
  if f1s.isEmpty then best
  else
    let mean_f1 := f1s.sum / (f1s.length : ℚ)
    if best.1 < mean_f1 then (mean_f1, some threshold) else best

/-- The candidate sweep for one algorithm: fold the candidate list
starting from `best_f1 = -1`, `best_threshold = None`. -/
def best_threshold {σ : Type} (samples : List σ) (true_voicing : σ → List Bool)
    (extract : ℚ → σ → Option (List Bool)) (threshold_range : List ℚ) : Option ℚ :=
  (threshold_range.foldl (thresholdStep samples true_voicing extract) (-1, none)).2

/-- Embedding of `optimize_thresholds`: one selected threshold (or
`None`) per algorithm name. -/
def optimize_thresholds {σ : Type} (samples : List σ)
    (true_voicing : σ → List Bool) (algos : List (CalibAlgo σ))
    (threshold_range : List ℚ) : List (String × Option ℚ) :=
  algos.map fun a =>
    (a.name, best_threshold samples true_voicing a.extract_pitch threshold_range)

/-- Abstract form of the candidate-loop step, parameterized by the
candidate-scoring function. -/
def selStep {α : Type} (m : α → Option ℚ) (best : ℚ × Option α) (t : α) :
    ℚ × Option α :=
  match m t with
  | none => best
  | some v => if best.1 < v then (v, some t) else best

/-! ### Per-algorithm evaluation (`evaluate_pitch_algorithms`)

A dataset sample carries its ground-truth pitch and voicing; the
audio buffer is opaque to the evaluator, so an algorithm with its
fixed calibrated threshold is modelled as a function from the sample
to an optional `(pred_pitch, pred_voicing)` pair, `none` modelling a
per-file exception (caught, logged and skipped by the source). -/

/-- One dataset item as consumed by the evaluator. -/
structure Sample where
  pitch : List ℝ
  voicing : List Bool

/-- An algorithm with its threshold already fixed. -/
abbrev EvalAlgo := Sample → Option (List ℝ × List Bool)

/-- Relative-smoothness metric of `evaluate_pitch_smoothness`:
coefficient of variation of relative pitch changes across consecutive
predicted-voiced frames with positive pitch; `none` models NaN. -/
noncomputable def relative_smoothness (pitch_pred : List ℝ)
    (pred_voicing : List Bool) : Option ℝ :=
  let voiced_idx := (List.range pred_voicing.length).filter
    fun i => pred_voicing.getD i false
  if 2 ≤ voiced_idx.length then
    let consec := (voiced_idx.zip voiced_idx.tail).filter
      fun p => decide (p.2 = p.1 + 1)
    let valid := (consec.map
        fun p => (pitch_pred.getD p.1 0, pitch_pred.getD p.2 0)).filter
      fun q => decide (0 < q.1) && decide (0 < q.2)
    if valid.isEmpty then none
    else
      let rel := valid.map fun q => |q.2 - q.1| / (q.1 + 1e-8)
      let mean_chg := rel.sum / (rel.length : ℝ)
      let std_chg := Real.sqrt ((rel.map fun x => (x - mean_chg) ^ 2).sum /
        (rel.length : ℝ))
      if 1e-12 < mean_chg then some (std_chg / mean_chg)
      else if std_chg < 1e-8 then some 0 else none
  else none

/-- Result record of one algorithm's evaluation; `none` models the NaN
entries of the source's result dictionary. -/
structure AlgoResult where
  voicing_precision : Option ℚ
  voicing_recall : Option ℚ
  voicing_f1 : Option ℚ
  rmse : Option ℝ
  cents_error : Option ℝ
  rpa : Option ℝ
  rca : Option ℝ
  octave_error_rate : Option ℝ
  gross_error_rate : Option ℝ
  relative_smoothness : Option ℝ
  continuity_breaks : Option ℚ
  combined_score : Option ℝ
  num_files_processed : ℕ
  total_frames : ℕ

/-- The all-NaN record produced when no file at all was processed. -/
def nanAlgoResult : AlgoResult :=
  ⟨none, none, none, none, none, none, none, none, none, none, none, none, 0, 0⟩

/-- Files surviving the evaluator's per-file loop: files whose
ground-truth voicing is entirely false are skipped, and a failing
extraction is caught and skipped; the survivors carry their
predictions. -/
def processedFiles (algo : EvalAlgo) (dataset : List Sample) :
    List (Sample × List ℝ × List Bool) :=
  dataset.filterMap fun s =>
    if s.voicing.any id then (algo s).map fun pr => (s, pr) else none

/-- Mean of a list of aggregated per-file values, `none` when empty
(all-NaN aggregation). -/
noncomputable def optMeanR (l : List ℝ) : Option ℝ :=
  if l.isEmpty then none else some (l.sum / (l.length : ℝ))

/-- Rational variant of `optMeanR`. -/
def optMeanQ (l : List ℚ) : Option ℚ :=
  if l.isEmpty then none else some (l.sum / (l.length : ℚ))

/-- The source's component filter `c and c > 0 and not np.isnan(c)`:
keep components that are defined and strictly positive. -/
noncomputable def valid_components (components : List (Option ℝ)) : List ℝ :=
  (components.filterMap id).filter fun c => decide (0 < c)

/-- Combined score of a component list: harmonic mean of the valid
components, `0.0` when none qualifies. -/
noncomputable def combined_score (components : List (Option ℝ)) : ℝ :=
  if (valid_components components).isEmpty then 0
  else ((valid_components components).length : ℝ) /
    ((valid_components components).map fun c => 1 / c).sum

/-- Harmonic mean as the specification words it: count divided by the
sum of reciprocals. -/
noncomputable def harmonicMean (l : List ℝ) : ℝ :=
  (l.length : ℝ) / (l.map fun c => 1 / c).sum

/-- The six score components as read back from a result record:
`[RPA, exp(-cents_error/500), recall, precision, exp(-octave_error_rate*10),
exp(-gross_error_rate*5)]`. -/
noncomputable def componentsOf (r : AlgoResult) : List (Option ℝ) :=
  [r.rpa,
   r.cents_error.map fun c => Real.exp (-(c / 500)),
   r.voicing_recall.map fun q => (q : ℝ),
   r.voicing_precision.map fun q => (q : ℝ),
   r.octave_error_rate.map fun x => Real.exp (-(x * 10)),
   r.gross_error_rate.map fun x => Real.exp (-(x * 5))]

/-- Embedding of one algorithm's pass of `evaluate_pitch_algorithms`:
skip unusable files, emit the all-NaN record when nothing survives,
otherwise concatenate the per-file arrays, evaluate the global voicing
and pitch metrics, average per-file smoothness metrics over their
defined values, and attach the combined score. A length mismatch
between predicted and true pitch propagates as an error, as in the
source, where `evaluate_pitch_accuracy` raises outside the per-file
`try` block. -/
noncomputable def evalAlgo (algo : EvalAlgo) (dataset : List Sample) :
    Except String AlgoResult :=
  let proc := processedFiles algo dataset
  if proc.isEmpty then .ok nanAlgoResult
  else
    let gPredV := (proc.map fun x => x.2.2).flatten
    let gTrueV := (proc.map fun x => x.1.voicing).flatten
    let gPredP := (proc.map fun x => x.2.1).flatten
    let gTrueP := (proc.map fun x => x.1.pitch).flatten
    let gMask := (proc.map fun x =>
      List.zipWith (fun a b => a && b) x.2.2 x.1.voicing).flatten
    let vm := evaluate_voicing_detection gPredV gTrueV
    match evaluate_pitch_accuracy gPredP gTrueP gMask 50 200 with
    | .error e => .error e
    | .ok pm =>
      let components : List (Option ℝ) :=
        [pm.rpa,
         pm.cents_error.map fun c => Real.exp (-(c / 500)),
         some ((vm.recall : ℚ) : ℝ),
         some ((vm.precision : ℚ) : ℝ),
         pm.octave_error_rate.map fun x => Real.exp (-(x * 10)),
         pm.gross_error_rate.map fun x => Real.exp (-(x * 5))]
      .ok
        { voicing_precision := some vm.precision
          voicing_recall := some vm.recall
          voicing_f1 := some vm.f1
          rmse := pm.rmse
          cents_error := pm.cents_error
          rpa := pm.rpa
          rca := pm.rca
          octave_error_rate := pm.octave_error_rate
          gross_error_rate := pm.gross_error_rate
          relative_smoothness :=
            optMeanR (proc.filterMap fun x => relative_smoothness x.2.1 x.2.2)
          continuity_breaks :=
            optMeanQ (proc.filterMap fun x => continuity_breaks x.2.2 x.1.voicing)
          combined_score := some (combined_score components)
          num_files_processed := proc.length
          total_frames := gPredV.length }

/-- Embedding of the full `evaluate_pitch_algorithms` loop: one result
record per named algorithm. -/
noncomputable def evaluate_pitch_algorithms (algos : List (String × EvalAlgo))
    (dataset : List Sample) : List (String × Except String AlgoResult) :=
  algos.map fun a => (a.1, evalAlgo a.2 dataset)

/-- Specification of a maximal contiguous true-voiced run `[s, e)` of
a mask: nonempty, within bounds, all-true inside, and not extendable
on either side. -/
def IsMaxRun (mask : List Bool) (s e : ℕ) : Prop :=
  s < e ∧ e ≤ mask.length ∧ (∀ i, s ≤ i → i < e → mask.getD i false = true) ∧
  (s = 0 ∨ mask.getD (s - 1) false = false) ∧
  (e = mask.length ∨ mask.getD e false = false)

/-! ## Theorems -/

/-- The precision returned by `metricsOfCounts` is positive exactly
when the true-positive count is positive. -/
theorem metricsOfCounts_precision_pos_iff (tp fp fn : ℕ) :
    0 < (metricsOfCounts tp fp fn).precision ↔ 0 < tp := by
  unfold metricsOfCounts
  rcases Nat.eq_zero_or_pos tp with h | h
  · subst h
    simp
  · have hd : (0 : ℕ) < tp + fp := Nat.lt_of_lt_of_le h (Nat.le_add_right _ _)
    have htpq : (0 : ℚ) < (tp : ℚ) := by exact_mod_cast h
    have hdq : (0 : ℚ) < (tp : ℚ) + (fp : ℚ) := by positivity
    simp only [hd, if_pos]
    exact ⟨fun _ => h, fun _ => div_pos htpq hdq⟩

/-- The recall returned by `metricsOfCounts` is positive exactly when
the true-positive count is positive. -/
theorem metricsOfCounts_recall_pos_iff (tp fp fn : ℕ) :
    0 < (metricsOfCounts tp fp fn).recall ↔ 0 < tp := by
  unfold metricsOfCounts
  rcases Nat.eq_zero_or_pos tp with h | h
  · subst h
    simp
  · have hd : (0 : ℕ) < tp + fn := Nat.lt_of_lt_of_le h (Nat.le_add_right _ _)
    have htpq : (0 : ℚ) < (tp : ℚ) := by exact_mod_cast h
    have hdq : (0 : ℚ) < (tp : ℚ) + (fn : ℚ) := by positivity
    simp only [hd, if_pos]
    exact ⟨fun _ => h, fun _ => div_pos htpq hdq⟩

/-- Each ratio produced by `metricsOfCounts` lies in `[0, 1]`. -/
theorem metricsOfCounts_precision_mem (tp fp fn : ℕ) :
    0 ≤ (metricsOfCounts tp fp fn).precision ∧ (metricsOfCounts tp fp fn).precision ≤ 1 := by
  unfold metricsOfCounts
  by_cases hd : 0 < tp + fp
  · have hdq : (0 : ℚ) < (tp : ℚ) + (fp : ℚ) := by
      have : (0 : ℚ) < ((tp + fp : ℕ) : ℚ) := by exact_mod_cast hd
      push_cast at this
      linarith
    simp only [hd, if_pos]
    refine ⟨div_nonneg (by positivity) hdq.le, ?_⟩
    rw [div_le_one hdq]
    have : (0 : ℚ) ≤ (fp : ℚ) := by positivity
    linarith
  · simp [hd]

/-- Recall analogue of `metricsOfCounts_precision_mem`. -/
theorem metricsOfCounts_recall_mem (tp fp fn : ℕ) :
    0 ≤ (metricsOfCounts tp fp fn).recall ∧ (metricsOfCounts tp fp fn).recall ≤ 1 := by
  unfold metricsOfCounts
  by_cases hd : 0 < tp + fn
  · have hdq : (0 : ℚ) < (tp : ℚ) + (fn : ℚ) := by
      have : (0 : ℚ) < ((tp + fn : ℕ) : ℚ) := by exact_mod_cast hd
      push_cast at this
      linarith
    simp only [hd, if_pos]
    refine ⟨div_nonneg (by positivity) hdq.le, ?_⟩
    rw [div_le_one hdq]
    have : (0 : ℚ) ≤ (fn : ℚ) := by positivity
    linarith
  · simp [hd]

/-- Full range/zero characterization of `metricsOfCounts`: all three
outputs lie in `[0,1]`, and F1 vanishes exactly when precision plus
recall vanishes. -/
theorem metricsOfCounts_spec (tp fp fn : ℕ) :
    (0 ≤ (metricsOfCounts tp fp fn).precision ∧ (metricsOfCounts tp fp fn).precision ≤ 1) ∧
    (0 ≤ (metricsOfCounts tp fp fn).recall ∧ (metricsOfCounts tp fp fn).recall ≤ 1) ∧
    (0 ≤ (metricsOfCounts tp fp fn).f1 ∧ (metricsOfCounts tp fp fn).f1 ≤ 1) ∧
    ((metricsOfCounts tp fp fn).f1 = 0 ↔
      (metricsOfCounts tp fp fn).precision + (metricsOfCounts tp fp fn).recall = 0) := by
  obtain ⟨hp0, hp1⟩ := metricsOfCounts_precision_mem tp fp fn
  obtain ⟨hr0, hr1⟩ := metricsOfCounts_recall_mem tp fp fn
  have hf1 : (metricsOfCounts tp fp fn).f1 =
      if (metricsOfCounts tp fp fn).precision + (metricsOfCounts tp fp fn).recall = 0
      then 0
      else 2 * (metricsOfCounts tp fp fn).precision * (metricsOfCounts tp fp fn).recall /
        ((metricsOfCounts tp fp fn).precision + (metricsOfCounts tp fp fn).recall) := rfl
  refine ⟨⟨hp0, hp1⟩, ⟨hr0, hr1⟩, ?_, ?_⟩
  · rw [hf1]
    by_cases h : (metricsOfCounts tp fp fn).precision + (metricsOfCounts tp fp fn).recall = 0
    · simp [h]
    · have hPR : 0 < (metricsOfCounts tp fp fn).precision + (metricsOfCounts tp fp fn).recall :=
        lt_of_le_of_ne (by linarith) (Ne.symm h)
      rw [if_neg h]
      constructor
      · positivity
      · rw [div_le_one hPR]
        nlinarith
  · rw [hf1]
    by_cases h : (metricsOfCounts tp fp fn).precision + (metricsOfCounts tp fp fn).recall = 0
    · simp [h]
    · have hPR : 0 < (metricsOfCounts tp fp fn).precision + (metricsOfCounts tp fp fn).recall :=
        lt_of_le_of_ne (by linarith) (Ne.symm h)
      rw [if_neg h]
      simp only [h, iff_false]
      -- precision and recall are positive together: both are positive iff tp is
      have htp : 0 < tp := by
        by_contra htp
        have htp0 : tp = 0 := Nat.eq_zero_of_not_pos htp
        have hPz : (metricsOfCounts tp fp fn).precision = 0 := by
          by_contra hne
          have hpos := lt_of_le_of_ne hp0 (Ne.symm hne)
          have := (metricsOfCounts_precision_pos_iff tp fp fn).mp hpos
          omega
        have hRz : (metricsOfCounts tp fp fn).recall = 0 := by
          by_contra hne
          have hpos := lt_of_le_of_ne hr0 (Ne.symm hne)
          have := (metricsOfCounts_recall_pos_iff tp fp fn).mp hpos
          omega
        exact h (by rw [hPz, hRz]; ring)
      have hPpos : 0 < (metricsOfCounts tp fp fn).precision :=
        (metricsOfCounts_precision_pos_iff tp fp fn).mpr htp
      have hRpos : 0 < (metricsOfCounts tp fp fn).recall :=
        (metricsOfCounts_recall_pos_iff tp fp fn).mpr htp
      have hpos : 0 < 2 * (metricsOfCounts tp fp fn).precision *
          (metricsOfCounts tp fp fn).recall /
          ((metricsOfCounts tp fp fn).precision + (metricsOfCounts tp fp fn).recall) := by
        positivity
      exact ne_of_gt hpos

/-- C5: for equal-length boolean voicing sequences, the precision,
recall and F1 returned by `evaluate_voicing_detection` lie in `[0,1]`,
and F1 is zero exactly when precision plus recall is zero. -/
theorem C5_voicing_metrics_range (pred_voiced true_voiced : List Bool)
    (hlen : pred_voiced.length = true_voiced.length) :
    (0 ≤ (evaluate_voicing_detection pred_voiced true_voiced).precision ∧
      (evaluate_voicing_detection pred_voiced true_voiced).precision ≤ 1) ∧
    (0 ≤ (evaluate_voicing_detection pred_voiced true_voiced).recall ∧
      (evaluate_voicing_detection pred_voiced true_voiced).recall ≤ 1) ∧
    (0 ≤ (evaluate_voicing_detection pred_voiced true_voiced).f1 ∧
      (evaluate_voicing_detection pred_voiced true_voiced).f1 ≤ 1) ∧
    ((evaluate_voicing_detection pred_voiced true_voiced).f1 = 0 ↔
      (evaluate_voicing_detection pred_voiced true_voiced).precision +
        (evaluate_voicing_detection pred_voiced true_voiced).recall = 0) :=
  metricsOfCounts_spec _ _ _

/-- Witness for C5 at a concrete input. -/
theorem C5_voicing_metrics_range_witness :
    (0 ≤ (evaluate_voicing_detection [true, false] [true, true]).precision ∧
      (evaluate_voicing_detection [true, false] [true, true]).precision ≤ 1) ∧
    (0 ≤ (evaluate_voicing_detection [true, false] [true, true]).recall ∧
      (evaluate_voicing_detection [true, false] [true, true]).recall ≤ 1) ∧
    (0 ≤ (evaluate_voicing_detection [true, false] [true, true]).f1 ∧
      (evaluate_voicing_detection [true, false] [true, true]).f1 ≤ 1) ∧
    ((evaluate_voicing_detection [true, false] [true, true]).f1 = 0 ↔
      (evaluate_voicing_detection [true, false] [true, true]).precision +
        (evaluate_voicing_detection [true, false] [true, true]).recall = 0) :=
  C5_voicing_metrics_range [true, false] [true, true] rfl

/-- Counting a predicate over the zip of concatenations splits into
the per-part counts, provided the first parts are aligned. -/
theorem countP_zip_append (p1 t1 p2 t2 : List Bool) (h : p1.length = t1.length)
    (f : Bool × Bool → Bool) :
    ((p1 ++ p2).zip (t1 ++ t2)).countP f =
      (p1.zip t1).countP f + (p2.zip t2).countP f := by
  rw [List.zip_append h, List.countP_append]

/-- C4: voicing metrics over a concatenation of two aligned frame
sequences equal the metrics computed from the element-wise sums of the
per-sequence TP/FP/FN counts (frame-count weighting); moreover, for a
concrete pair of files of different lengths, the concatenated F1
differs from the unweighted mean of the two per-file F1 scores. -/
theorem C4_concat_aggregation (p1 t1 p2 t2 : List Bool)
    (h : p1.length = t1.length) :
    evaluate_voicing_detection (p1 ++ p2) (t1 ++ t2) =
      metricsOfCounts (truePos p1 t1 + truePos p2 t2)
        (falsePos p1 t1 + falsePos p2 t2) (falseNeg p1 t1 + falseNeg p2 t2) ∧
    (evaluate_voicing_detection ([true] ++ [false, false, false, false])
        ([true] ++ [true, true, true, true])).f1 ≠
      ((evaluate_voicing_detection [true] [true]).f1 +
        (evaluate_voicing_detection [false, false, false, false]
          [true, true, true, true]).f1) / 2 := by
  constructor
  · unfold evaluate_voicing_detection truePos falsePos falseNeg
    rw [countP_zip_append p1 t1 p2 t2 h, countP_zip_append p1 t1 p2 t2 h,
      countP_zip_append p1 t1 p2 t2 h]
  · have e1 : evaluate_voicing_detection ([true] ++ [false, false, false, false])
        ([true] ++ [true, true, true, true]) = metricsOfCounts 1 0 4 := rfl
    have e2 : evaluate_voicing_detection [true] [true] = metricsOfCounts 1 0 0 := rfl
    have e3 : evaluate_voicing_detection [false, false, false, false]
        [true, true, true, true] = metricsOfCounts 0 0 4 := rfl
    rw [e1, e2, e3]
    norm_num [metricsOfCounts]

/-- Witness for C4 at a concrete aligned input. -/
theorem C4_concat_aggregation_witness :
    evaluate_voicing_detection ([true] ++ [true]) ([true] ++ [false]) =
      metricsOfCounts (truePos [true] [true] + truePos [true] [false])
        (falsePos [true] [true] + falsePos [true] [false])
        (falseNeg [true] [true] + falseNeg [true] [false]) :=
  (C4_concat_aggregation [true] [true] [true] [false] rfl).1

/-- C7: `evaluate_pitch_accuracy` raises a length-mismatch error
exactly when the predicted and true pitch arrays differ in length, so
mismatched inputs are never silently truncated or padded. -/
theorem C7_length_mismatch_error (pitch_pred pitch_true : List ℝ)
    (valid_mask : List Bool) (epsilon gross_error_threshold : ℝ) :
    (∃ e, evaluate_pitch_accuracy pitch_pred pitch_true valid_mask epsilon
      gross_error_threshold = .error e) ↔
      pitch_pred.length ≠ pitch_true.length := by
  unfold evaluate_pitch_accuracy
  by_cases h : pitch_pred.length = pitch_true.length
  · simp only [h, ne_eq, not_true_eq_false, if_false, iff_false, not_exists]
    intro e
    by_cases hm : valid_mask.any id
    · simp [hm]
    · simp [hm]
  · simp [h]

/-- C6: with equal-length arrays and a mask selecting no frame,
`evaluate_pitch_accuracy` returns NaN (`none`) for every metric and a
valid-frame count of zero, without raising. -/
theorem C6_empty_mask_not_applicable (pitch_pred pitch_true : List ℝ)
    (valid_mask : List Bool) (epsilon gross_error_threshold : ℝ)
    (hlen : pitch_pred.length = pitch_true.length)
    (hmask : valid_mask.any id = false) :
    evaluate_pitch_accuracy pitch_pred pitch_true valid_mask epsilon
      gross_error_threshold = .ok ⟨none, none, none, none, none, none, 0⟩ := by
  unfold evaluate_pitch_accuracy
  simp [hlen, hmask]

/-- Witness for C6 at a concrete input. -/
theorem C6_empty_mask_not_applicable_witness :
    evaluate_pitch_accuracy [100, 200] [100, 300] [false, false] 50 200 =
      .ok ⟨none, none, none, none, none, none, 0⟩ :=
  C6_empty_mask_not_applicable [100, 200] [100, 300] [false, false] 50 200 rfl rfl

/-- Python float modulo by a positive base never exceeds a nonnegative
argument. -/
theorem fmod_le_self (a : ℝ) (ha : 0 ≤ a) : fmod a 1200 ≤ a := by
  unfold fmod
  have hfloor : (0 : ℤ) ≤ ⌊a / 1200⌋ := by
    apply Int.floor_nonneg.mpr
    positivity
  have : (0 : ℝ) ≤ (⌊a / 1200⌋ : ℤ) := by exact_mod_cast hfloor
  nlinarith

/-- Chroma folding never increases a nonnegative cents difference. -/
theorem foldCents_le_self (a : ℝ) (ha : 0 ≤ a) : foldCents a ≤ a :=
  le_trans (min_le_left _ _) (fmod_le_self a ha)

/-- C3: whenever the inputs are equal-length and the mask selects at
least one frame, the RCA computed by `evaluate_pitch_accuracy` is at
least the RPA, for every tolerance, because chroma folding never
increases the (nonnegative) cents distance. -/
theorem C3_rca_ge_rpa (pitch_pred pitch_true : List ℝ) (valid_mask : List Bool)
    (epsilon gross_error_threshold : ℝ)
    (hlen : pitch_pred.length = pitch_true.length)
    (hmask : valid_mask.any id = true) :
    ∃ r, evaluate_pitch_accuracy pitch_pred pitch_true valid_mask epsilon
        gross_error_threshold = .ok r ∧
      ∃ a b, r.rpa = some a ∧ r.rca = some b ∧ a ≤ b := by
  unfold evaluate_pitch_accuracy
  simp only [hlen, ne_eq, not_true_eq_false, if_false, hmask, if_true]
  refine ⟨_, rfl, ?_⟩
  set pairs := maskedPairs pitch_pred pitch_true valid_mask with hpairs
  set cents := pairs.map fun x => centsDiff x.1 x.2 with hcents
  refine ⟨_, _, rfl, rfl, ?_⟩
  have hcount : (cents.countP fun c => decide (c < epsilon)) ≤
      cents.countP fun c => decide (foldCents c < epsilon) := by
    apply List.countP_mono_left
    intro c hc h
    have hc0 : 0 ≤ c := by
      rw [hcents] at hc
      obtain ⟨x, _, hx⟩ := List.mem_map.mp hc
      rw [← hx]
      exact abs_nonneg _
    have hlt : c < epsilon := of_decide_eq_true h
    exact decide_eq_true (lt_of_le_of_lt (foldCents_le_self c hc0) hlt)
  rcases Nat.eq_zero_or_pos pairs.length with hn | hn
  · have hc0 : cents.length = 0 := by rw [hcents, List.length_map, hn]
    have h1 : (cents.countP fun c => decide (c < epsilon)) = 0 :=
      Nat.le_zero.mp (hc0 ▸ List.countP_le_length _)
    have h2 : (cents.countP fun c => decide (foldCents c < epsilon)) = 0 :=
      Nat.le_zero.mp (hc0 ▸ List.countP_le_length _)
    rw [h1, h2]
  · have hnpos : (0 : ℝ) < (pairs.length : ℝ) := by exact_mod_cast hn
    apply div_le_div_of_nonneg_right ?_ hnpos.le
    exact_mod_cast hcount

/-- Witness for C3 at a concrete input. -/
theorem C3_rca_ge_rpa_witness :
    ∃ r, evaluate_pitch_accuracy [220, 110] [220, 440] [true, true] 50 200 = .ok r ∧
      ∃ a b, r.rpa = some a ∧ r.rca = some b ∧ a ≤ b :=
  C3_rca_ge_rpa [220, 110] [220, 440] [true, true] 50 200 rfl rfl

/-- Every run produced by the scan is nonempty and stops within the
index range of the scanned suffix. -/
theorem trueRunsAux_bounds :
    ∀ (l : List Bool) (i : ℕ) (st : Option ℕ),
      (∀ s, st = some s → s < i) →
      ∀ r ∈ trueRunsAux l i st, r.1 < r.2 ∧ r.2 ≤ i + l.length
  | [], i, none, _hst => by intro r hr; simp [trueRunsAux] at hr
  | [], i, some s, hst => by
    intro r hr
    simp only [trueRunsAux, List.mem_singleton] at hr
    subst hr
    exact ⟨hst s rfl, by simp⟩
  | true :: bs, i, none, _hst => by
    intro r hr
    have h := trueRunsAux_bounds bs (i + 1) (some i)
      (fun s hs => by cases hs; omega) r hr
    have h2 := h.2
    refine ⟨h.1, ?_⟩
    simp only [List.length_cons]
    omega
  | true :: bs, i, some s, hst => by
    intro r hr
    have h := trueRunsAux_bounds bs (i + 1) (some s)
      (fun s' hs' => by cases hs'; exact Nat.lt_succ_of_lt (hst s rfl)) r hr
    have h2 := h.2
    refine ⟨h.1, ?_⟩
    simp only [List.length_cons]
    omega
  | false :: bs, i, none, _hst => by
    intro r hr
    have h := trueRunsAux_bounds bs (i + 1) none (by intro s hs; cases hs) r hr
    have h2 := h.2
    refine ⟨h.1, ?_⟩
    simp only [List.length_cons]
    omega
  | false :: bs, i, some s, hst => by
    intro r hr
    simp only [trueRunsAux, List.mem_cons] at hr
    rcases hr with hr | hr
    · subst hr
      refine ⟨hst s rfl, ?_⟩
      simp only [List.length_cons]
      omega
    · have h := trueRunsAux_bounds bs (i + 1) none (by intro s' hs'; cases hs') r hr
      have h2 := h.2
      refine ⟨h.1, ?_⟩
      simp only [List.length_cons]
      omega

/-- Runs of the ground-truth mask stay inside the mask. -/
theorem trueRuns_bounds (mask : List Bool) :
    ∀ r ∈ trueRuns mask, r.1 < r.2 ∧ r.2 ≤ mask.length := by
  intro r hr
  have := trueRunsAux_bounds mask 0 none (by intro s hs; cases hs) r hr
  simpa using this

/-- A slice of a mask fails `all` exactly when some frame in the index
window is `false`. -/
theorem segmentBroken_iff (pred_voicing : List Bool) (s e : ℕ)
    (hse : s < e) (hlen : e ≤ pred_voicing.length) :
    segmentBroken pred_voicing (s, e) = true ↔
      ∃ i, s ≤ i ∧ i < e ∧ pred_voicing.getD i true = false := by
  unfold segmentBroken
  rw [Bool.not_eq_true', List.all_eq_false]
  constructor
  · rintro ⟨x, hx, hxf⟩
    obtain ⟨j, hj, hjx⟩ := List.getElem_of_mem hx
    have hjlen : j < e - s := by
      have := hj
      simp only [List.length_take, List.length_drop] at this
      omega
    refine ⟨s + j, Nat.le_add_right _ _, by omega, ?_⟩
    have hsj : s + j < pred_voicing.length := by omega
    rw [List.getD_eq_getElem _ _ hsj]
    have hval : ((pred_voicing.drop s).take (e - s))[j] = pred_voicing[s + j] := by
      rw [List.getElem_take, List.getElem_drop]
    rw [← hval, hjx]
    simp only [id] at hxf
    exact Bool.eq_false_iff.mpr hxf
  · rintro ⟨i, hsi, hie, hif⟩
    obtain ⟨j, rfl⟩ : ∃ j, i = s + j := ⟨i - s, by omega⟩
    have hsj : s + j < pred_voicing.length := by omega
    rw [List.getD_eq_getElem _ _ hsj] at hif
    have hj : j < ((pred_voicing.drop s).take (e - s)).length := by
      simp only [List.length_take, List.length_drop]
      omega
    refine ⟨((pred_voicing.drop s).take (e - s))[j], List.getElem_mem _, ?_⟩
    have hval : ((pred_voicing.drop s).take (e - s))[j] = pred_voicing[s + j] := by
      rw [List.getElem_take, List.getElem_drop]
    simp only [id, hval, hif]
    exact Bool.false_ne_true

/-- The scan `trueRunsAux` emits exactly the maximal runs of the full
mask `L` that are not yet closed: those starting at the open run's
start, or at or after the current position. -/
theorem trueRunsAux_mem_iff (L : List Bool) :
    ∀ (l : List Bool) (i : ℕ) (st : Option ℕ),
      L.length = i + l.length →
      (∀ j, j < l.length → L.getD (i + j) false = l.getD j false) →
      (match st with
        | none => i = 0 ∨ L.getD (i - 1) false = false
        | some s => s < i ∧ (∀ j, s ≤ j → j < i → L.getD j false = true) ∧
            (s = 0 ∨ L.getD (s - 1) false = false)) →
      ∀ r : ℕ × ℕ, r ∈ trueRunsAux l i st ↔
        (IsMaxRun L r.1 r.2 ∧ match st with
          | none => i ≤ r.1
          | some s => r.1 = s ∨ i ≤ r.1)
  | [], i, none => by
    intro hlen hsuf hst r
    obtain ⟨a, b⟩ := r
    simp only [trueRunsAux, List.not_mem_nil, false_iff, not_and]
    rintro ⟨hab, hble, _, _, _⟩ hge
    simp only [List.length_nil, Nat.add_zero] at hlen
    omega
  | [], i, some s => by
    intro hlen hsuf hst r
    obtain ⟨hsi, hall, hleft⟩ := hst
    obtain ⟨a, b⟩ := r
    have hLi : L.length = i := by
      simpa using hlen
    simp only [trueRunsAux, List.mem_singleton, Prod.mk.injEq]
    constructor
    · rintro ⟨rfl, rfl⟩
      exact ⟨⟨hsi, by omega, fun j h1 h2 => hall j h1 h2, hleft,
        Or.inl hLi.symm⟩, Or.inl rfl⟩
    · rintro ⟨⟨hab, hble, hallr, hleftr, hrightr⟩, hor⟩
      rcases hor with h | h
      · subst h
        refine ⟨rfl, ?_⟩
        by_contra hne
        have hblt : b < i := by omega
        have htrue : L.getD b false = true := hall b (by omega) hblt
        rcases hrightr with h2 | h2
        · omega
        · rw [h2] at htrue; cases htrue
      · omega
  | true :: bs, i, none => by
    intro hlen hsuf hst r
    obtain ⟨a, b⟩ := r
    simp only [List.length_cons] at hlen
    have hhead : L.getD i false = true := by
      have := hsuf 0 (by simp)
      simpa using this
    have hsuf' : ∀ j, j < bs.length → L.getD (i + 1 + j) false = bs.getD j false := by
      intro j hj
      have := hsuf (j + 1) (by simp; omega)
      rw [show i + (j + 1) = i + 1 + j by omega] at this
      simpa using this
    have hst' : i < i + 1 ∧ (∀ j, i ≤ j → j < i + 1 → L.getD j false = true) ∧
        (i = 0 ∨ L.getD (i - 1) false = false) := by
      refine ⟨Nat.lt_succ_self i, ?_, hst⟩
      intro j h1 h2
      have hj : j = i := by omega
      rw [hj]
      exact hhead
    rw [show trueRunsAux (true :: bs) i none = trueRunsAux bs (i + 1) (some i)
      from rfl]
    rw [trueRunsAux_mem_iff L bs (i + 1) (some i) (by omega) hsuf' hst' (a, b)]
    constructor
    · rintro ⟨hm, hor⟩
      exact ⟨hm, by omega⟩
    · rintro ⟨hm, hge⟩
      exact ⟨hm, by omega⟩
  | true :: bs, i, some s => by
    intro hlen hsuf hst r
    obtain ⟨hsi, hall, hleft⟩ := hst
    obtain ⟨a, b⟩ := r
    simp only [List.length_cons] at hlen
    have hhead : L.getD i false = true := by
      have := hsuf 0 (by simp)
      simpa using this
    have hsuf' : ∀ j, j < bs.length → L.getD (i + 1 + j) false = bs.getD j false := by
      intro j hj
      have := hsuf (j + 1) (by simp; omega)
      rw [show i + (j + 1) = i + 1 + j by omega] at this
      simpa using this
    have hst' : s < i + 1 ∧ (∀ j, s ≤ j → j < i + 1 → L.getD j false = true) ∧
        (s = 0 ∨ L.getD (s - 1) false = false) := by
      refine ⟨by omega, ?_, hleft⟩
      intro j h1 h2
      rcases Nat.lt_or_ge j i with h3 | h3
      · exact hall j h1 h3
      · have hj : j = i := by omega
        rw [hj]
        exact hhead
    rw [show trueRunsAux (true :: bs) i (some s) = trueRunsAux bs (i + 1) (some s)
      from rfl]
    rw [trueRunsAux_mem_iff L bs (i + 1) (some s) (by omega) hsuf' hst' (a, b)]
    constructor
    · rintro ⟨hm, hor⟩
      refine ⟨hm, ?_⟩
      rcases hor with h | h
      · exact Or.inl h
      · exact Or.inr (by omega)
    · rintro ⟨hm, hor⟩
      refine ⟨hm, ?_⟩
      rcases hor with h | h
      · exact Or.inl h
      · rcases Nat.eq_or_lt_of_le h with h2 | h2
        · exfalso
          obtain ⟨hab, hble, hallr, hleftr, hrightr⟩ := hm
          have hane : a ≠ 0 := by omega
          have htrue : L.getD (a - 1) false = true := by
            apply hall
            · omega
            · omega
          rcases hleftr with h3 | h3
          · exact hane h3
          · rw [h3] at htrue; cases htrue
        · exact Or.inr (by omega)
  | false :: bs, i, none => by
    intro hlen hsuf hst r
    obtain ⟨a, b⟩ := r
    simp only [List.length_cons] at hlen
    have hhead : L.getD i false = false := by
      have := hsuf 0 (by simp)
      simpa using this
    have hsuf' : ∀ j, j < bs.length → L.getD (i + 1 + j) false = bs.getD j false := by
      intro j hj
      have := hsuf (j + 1) (by simp; omega)
      rw [show i + (j + 1) = i + 1 + j by omega] at this
      simpa using this
    rw [show trueRunsAux (false :: bs) i none = trueRunsAux bs (i + 1) none
      from rfl]
    rw [trueRunsAux_mem_iff L bs (i + 1) none (by omega) hsuf'
      (Or.inr (by simpa using hhead)) (a, b)]
    constructor
    · rintro ⟨hm, hge⟩
      exact ⟨hm, by omega⟩
    · rintro ⟨hm, hge⟩
      refine ⟨hm, ?_⟩
      rcases Nat.eq_or_lt_of_le hge with h2 | h2
      · exfalso
        obtain ⟨hab, hble, hallr, hleftr, hrightr⟩ := hm
        have htrue : L.getD i false = true := by
          apply hallr
          · omega
          · omega
        rw [hhead] at htrue
        cases htrue
      · omega
  | false :: bs, i, some s => by
    intro hlen hsuf hst r
    obtain ⟨hsi, hall, hleft⟩ := hst
    obtain ⟨a, b⟩ := r
    simp only [List.length_cons] at hlen
    have hhead : L.getD i false = false := by
      have := hsuf 0 (by simp)
      simpa using this
    have hsuf' : ∀ j, j < bs.length → L.getD (i + 1 + j) false = bs.getD j false := by
      intro j hj
      have := hsuf (j + 1) (by simp; omega)
      rw [show i + (j + 1) = i + 1 + j by omega] at this
      simpa using this
    rw [show trueRunsAux (false :: bs) i (some s) =
      (s, i) :: trueRunsAux bs (i + 1) none from rfl]
    rw [List.mem_cons]
    rw [trueRunsAux_mem_iff L bs (i + 1) none (by omega) hsuf'
      (Or.inr (by simpa using hhead)) (a, b)]
    constructor
    · rintro (heq | ⟨hm, hge⟩)
      · obtain ⟨rfl, rfl⟩ := Prod.mk.injEq .. ▸ heq
        refine ⟨⟨hsi, by omega, fun j h1 h2 => hall j h1 h2, hleft,
          Or.inr hhead⟩, Or.inl rfl⟩
      · exact ⟨hm, Or.inr (by omega)⟩
    · rintro ⟨hm, hor⟩
      obtain ⟨hab, hble, hallr, hleftr, hrightr⟩ := hm
      rcases hor with h | h
      · subst h
        left
        have hbi : b = i := by
          rcases Nat.lt_or_ge b i with h2 | h2
          · exfalso
            have htrue : L.getD b false = true := hall b (by omega) h2
            rcases hrightr with h3 | h3
            · omega
            · rw [h3] at htrue; cases htrue
          · rcases Nat.eq_or_lt_of_le h2 with h3 | h3
            · omega
            · exfalso
              have htrue : L.getD i false = true := by
                apply hallr
                · omega
                · omega
              rw [hhead] at htrue
              cases htrue
        rw [hbi]
      · rcases Nat.eq_or_lt_of_le h with h2 | h2
        · exfalso
          have htrue : L.getD i false = true := by
            apply hallr
            · omega
            · omega
          rw [hhead] at htrue
          cases htrue
        · exact Or.inr ⟨⟨hab, hble, hallr, hleftr, hrightr⟩, by omega⟩

/-- The runs the labeling produces are exactly the maximal contiguous
true-voiced runs of the mask. -/
theorem trueRuns_mem_iff (mask : List Bool) (r : ℕ × ℕ) :
    r ∈ trueRuns mask ↔ IsMaxRun mask r.1 r.2 := by
  obtain ⟨a, b⟩ := r
  rw [trueRuns, trueRunsAux_mem_iff mask mask 0 none (by simp)
    (fun j hj => by simp) (Or.inl rfl) (a, b)]
  simp

/-- C8: the continuity-breaks value is the number of kept ground-truth
runs (maximal true-voiced runs longer than one frame) containing a
predicted-unvoiced frame, divided by the number of kept runs; it is
NaN (`none`) exactly when no run qualifies; in particular the single
length-3 run of `[F,T,T,T,F]` against prediction `[F,T,F,T,F]` gives
`1.0`, and a ground truth with only length-1 runs gives NaN. -/
theorem C8_continuity_breaks_spec :
    (∀ pred_voicing true_voicing : List Bool,
      continuity_breaks pred_voicing true_voicing = none ↔
        ((trueRuns true_voicing).filter fun r => decide (1 < r.2 - r.1)) = []) ∧
    (∀ pred_voicing true_voicing : List Bool,
      ((trueRuns true_voicing).filter fun r => decide (1 < r.2 - r.1)) ≠ [] →
      continuity_breaks pred_voicing true_voicing = some
        (((((trueRuns true_voicing).filter fun r => decide (1 < r.2 - r.1)).countP
            (segmentBroken pred_voicing) : ℕ) : ℚ) /
          ((((trueRuns true_voicing).filter fun r => decide (1 < r.2 - r.1)).length : ℕ) : ℚ))) ∧
    (∀ pred_voicing true_voicing : List Bool,
      pred_voicing.length = true_voicing.length →
      ∀ r ∈ (trueRuns true_voicing).filter fun r => decide (1 < r.2 - r.1),
        (segmentBroken pred_voicing r = true ↔
          ∃ i, r.1 ≤ i ∧ i < r.2 ∧ pred_voicing.getD i true = false)) ∧
    (∀ (mask : List Bool) (r : ℕ × ℕ),
      r ∈ trueRuns mask ↔ IsMaxRun mask r.1 r.2) ∧
    continuity_breaks [false, true, false, true, false]
      [false, true, true, true, false] = some 1 ∧
    continuity_breaks [true, true, true, true, true]
      [true, false, true, false, true] = none := by
  refine ⟨?_, ?_, ?_, trueRuns_mem_iff, ?_, ?_⟩
  · intro pv tv
    unfold continuity_breaks
    by_cases h : ((trueRuns tv).filter fun r => decide (1 < r.2 - r.1)).isEmpty
    · simp [h, List.isEmpty_iff.mp h]
    · simp only [h, if_false, Bool.false_eq_true]
      simp only [List.isEmpty_iff] at h
      simp [h]
  · intro pv tv hne
    unfold continuity_breaks
    have h : ((trueRuns tv).filter fun r => decide (1 < r.2 - r.1)).isEmpty = false := by
      rw [Bool.eq_false_iff]
      intro hT
      exact hne (List.isEmpty_iff.mp hT)
    simp [h]
  · intro pv tv hlen r hr
    have hmem : r ∈ trueRuns tv := List.mem_of_mem_filter hr
    obtain ⟨h1, h2⟩ := trueRuns_bounds tv r hmem
    exact segmentBroken_iff pv r.1 r.2 h1 (hlen ▸ h2)
  · have hseg : ((trueRuns [false, true, true, true, false]).filter
        fun r => decide (1 < r.2 - r.1)) = [(1, 4)] := rfl
    simp only [continuity_breaks, hseg]
    norm_num
    rfl
  · rfl

/-- Witness for C8's per-run characterization at a concrete input. -/
theorem C8_continuity_breaks_spec_witness :
    segmentBroken [false, true, false, true, false] (1, 4) = true ↔
      ∃ i, 1 ≤ i ∧ i < 4 ∧ [false, true, false, true, false].getD i true = false :=
  C8_continuity_breaks_spec.2.2.1 [false, true, false, true, false]
    [false, true, true, true, false] rfl (1, 4) (by decide)

/-- The concrete step is the abstract step applied to the mean-F1
scoring function. -/
theorem thresholdStep_eq_selStep {σ : Type} (samples : List σ)
    (true_voicing : σ → List Bool) (extract : ℚ → σ → Option (List Bool)) :
    thresholdStep samples true_voicing extract =
      selStep (candidateMeanF1 samples true_voicing extract) := by
  funext best t
  unfold thresholdStep selStep candidateMeanF1
  by_cases h : (fileF1s samples true_voicing extract t).isEmpty
  · simp [h]
  · simp [h]

/-- Folding the selection step over candidates none of which beats the
carried best leaves the state unchanged. -/
theorem selStep_foldl_of_all_le {α : Type} (m : α → Option ℚ) :
    ∀ (l : List α) (b : ℚ) (r : Option α),
      (∀ t ∈ l, ∀ v, m t = some v → v ≤ b) →
      l.foldl (selStep m) (b, r) = (b, r)
  | [], _, _, _ => rfl
  | t :: ts, b, r, h => by
    have hstep : selStep m (b, r) t = (b, r) := by
      unfold selStep
      cases hm : m t with
      | none => rfl
      | some v =>
        have hv := h t (List.mem_cons_self _ _) v hm
        simp [not_lt.mpr hv]
    rw [List.foldl_cons, hstep]
    exact selStep_foldl_of_all_le m ts b r
      fun u hu v hv => h u (List.mem_cons_of_mem _ hu) v hv

/-- When some candidate beats the carried best, the fold selects the
first candidate attaining the maximal score: every earlier candidate
scores at most the carried best or strictly below it, every later one
at most it. -/
theorem selStep_foldl_argmax {α : Type} (m : α → Option ℚ) :
    ∀ (l : List α) (b : ℚ) (r : Option α),
      (∃ t ∈ l, ∃ v, m t = some v ∧ b < v) →
      ∃ pre t post v, l = pre ++ t :: post ∧
        (l.foldl (selStep m) (b, r)).2 = some t ∧
        m t = some v ∧ b < v ∧
        (∀ u ∈ pre, ∀ w, m u = some w → w ≤ b ∨ w < v) ∧
        (∀ u ∈ post, ∀ w, m u = some w → w ≤ v)
  | [], _, _, hex => by simp at hex
  | t0 :: ts, b, r, hex => by
    rw [List.foldl_cons]
    cases hm : m t0 with
    | none =>
      have hstep : selStep m (b, r) t0 = (b, r) := by unfold selStep; rw [hm]
      rw [hstep]
      have hex' : ∃ t ∈ ts, ∃ v, m t = some v ∧ b < v := by
        obtain ⟨t, ht, v, hv, hbv⟩ := hex
        rcases List.mem_cons.mp ht with h | h
        · subst h; rw [hm] at hv; cases hv
        · exact ⟨t, h, v, hv, hbv⟩
      obtain ⟨pre, t, post, v, heq, hres, hv, hbv, hpre, hpost⟩ :=
        selStep_foldl_argmax m ts b r hex'
      refine ⟨t0 :: pre, t, post, v, by rw [heq]; rfl, hres, hv, hbv, ?_, hpost⟩
      intro u hu w hw
      rcases List.mem_cons.mp hu with h | h
      · subst h; rw [hm] at hw; cases hw
      · exact hpre u h w hw
    | some v0 =>
      by_cases hb : b < v0
      · have hstep : selStep m (b, r) t0 = (v0, some t0) := by
          unfold selStep; rw [hm]; simp [hb]
        rw [hstep]
        by_cases hex' : ∃ u ∈ ts, ∃ w, m u = some w ∧ v0 < w
        · obtain ⟨pre, t, post, w, heq, hres, hw, hvw, hpre, hpost⟩ :=
            selStep_foldl_argmax m ts v0 (some t0) hex'
          refine ⟨t0 :: pre, t, post, w, by rw [heq]; rfl, hres, hw,
            lt_trans hb hvw, ?_, hpost⟩
          intro u hu w' hw'
          rcases List.mem_cons.mp hu with h | h
          · subst h
            rw [hm] at hw'
            right
            exact lt_of_le_of_lt (le_of_eq (Option.some.inj hw').symm) hvw
          · rcases hpre u h w' hw' with h1 | h1
            · exact Or.inr (lt_of_le_of_lt h1 hvw)
            · exact Or.inr h1
        · push_neg at hex'
          have hconst : ts.foldl (selStep m) (v0, some t0) = (v0, some t0) :=
            selStep_foldl_of_all_le m ts v0 (some t0)
              fun u hu w hw => hex' u hu w hw
          refine ⟨[], t0, ts, v0, rfl, by rw [hconst], hm, hb, ?_, ?_⟩
          · intro u hu; cases hu
          · intro u hu w hw
            exact hex' u hu w hw
      · have hstep : selStep m (b, r) t0 = (b, r) := by
          unfold selStep; rw [hm]; simp [hb]
        rw [hstep]
        have hex' : ∃ t ∈ ts, ∃ v, m t = some v ∧ b < v := by
          obtain ⟨t, ht, v, hv, hbv⟩ := hex
          rcases List.mem_cons.mp ht with h | h
          · subst h
            rw [hm] at hv
            have hv0 : v0 = v := Option.some.inj hv
            rw [← hv0] at hbv
            exact absurd hbv hb
          · exact ⟨t, h, v, hv, hbv⟩
        obtain ⟨pre, t, post, v, heq, hres, hv, hbv, hpre, hpost⟩ :=
          selStep_foldl_argmax m ts b r hex'
        refine ⟨t0 :: pre, t, post, v, by rw [heq]; rfl, hres, hv, hbv, ?_, hpost⟩
        intro u hu w hw
        rcases List.mem_cons.mp hu with h | h
        · subst h
          rw [hm] at hw
          have hw0 : v0 = w := Option.some.inj hw
          exact Or.inl (hw0 ▸ not_lt.mp hb)
        · exact hpre u h w hw

/-- Viable candidates always score a nonnegative mean F1, since every
per-file F1 is nonnegative. -/
theorem candidateMeanF1_nonneg {σ : Type} (samples : List σ)
    (true_voicing : σ → List Bool) (extract : ℚ → σ → Option (List Bool))
    (t v : ℚ) (h : candidateMeanF1 samples true_voicing extract t = some v) :
    0 ≤ v := by
  unfold candidateMeanF1 at h
  by_cases he : (fileF1s samples true_voicing extract t).isEmpty
  · simp [he] at h
  · simp only [he, if_false, Bool.false_eq_true, Option.some.injEq] at h
    have hsum : 0 ≤ (fileF1s samples true_voicing extract t).sum := by
      apply List.sum_nonneg
      intro x hx
      obtain ⟨s, _, hs⟩ := List.mem_filterMap.mp hx
      obtain ⟨pv, _, hpv⟩ := Option.map_eq_some'.mp hs
      rw [← hpv]
      exact ((metricsOfCounts_spec _ _ _).2.2.1).1
    rw [← h]
    positivity

/-- C2: `optimize_thresholds` maps each algorithm's name to the
outcome of the candidate sweep; the sweep returns `None` exactly when
no candidate is viable, and otherwise returns the first candidate, in
iteration order, attaining the maximal mean per-file voicing F1 —
every earlier viable candidate scores strictly below it and every
viable candidate scores at most it (first-seen wins on exact ties). -/
theorem C2_threshold_selection {σ : Type} (samples : List σ)
    (true_voicing : σ → List Bool) (algos : List (CalibAlgo σ))
    (threshold_range : List ℚ) (a : CalibAlgo σ) (ha : a ∈ algos) :
    ((a.name, best_threshold samples true_voicing a.extract_pitch threshold_range) ∈
      optimize_thresholds samples true_voicing algos threshold_range) ∧
    (best_threshold samples true_voicing a.extract_pitch threshold_range = none ↔
      ∀ t ∈ threshold_range,
        candidateMeanF1 samples true_voicing a.extract_pitch t = none) ∧
    (∀ t, best_threshold samples true_voicing a.extract_pitch threshold_range = some t →
      ∃ pre post v, threshold_range = pre ++ t :: post ∧
        candidateMeanF1 samples true_voicing a.extract_pitch t = some v ∧
        (∀ u ∈ pre, ∀ w,
          candidateMeanF1 samples true_voicing a.extract_pitch u = some w → w < v) ∧
        (∀ u ∈ threshold_range, ∀ w,
          candidateMeanF1 samples true_voicing a.extract_pitch u = some w → w ≤ v)) := by
  have hbt : best_threshold samples true_voicing a.extract_pitch threshold_range =
      (threshold_range.foldl
        (selStep (candidateMeanF1 samples true_voicing a.extract_pitch)) (-1, none)).2 := by
    rw [best_threshold, thresholdStep_eq_selStep]
  refine ⟨List.mem_map_of_mem _ ha, ?_, ?_⟩
  · constructor
    · intro hnone t ht
      cases hm : candidateMeanF1 samples true_voicing a.extract_pitch t with
      | none => rfl
      | some v =>
        have hv0 : (0 : ℚ) ≤ v := candidateMeanF1_nonneg _ _ _ _ _ hm
        obtain ⟨pre, t', post, v', _, hres, _, _, _, _⟩ :=
          selStep_foldl_argmax (candidateMeanF1 samples true_voicing a.extract_pitch)
            threshold_range (-1) none ⟨t, ht, v, hm, by linarith⟩
        rw [hbt, hres] at hnone
        cases hnone
    · intro hall
      rw [hbt, selStep_foldl_of_all_le _ _ _ _ ?_]
      intro t ht v hv
      rw [hall t ht] at hv
      cases hv
  · intro t hsome
    have hex : ∃ u ∈ threshold_range, ∃ v,
        candidateMeanF1 samples true_voicing a.extract_pitch u = some v ∧ (-1 : ℚ) < v := by
      by_contra hno
      push_neg at hno
      have := selStep_foldl_of_all_le
        (candidateMeanF1 samples true_voicing a.extract_pitch) threshold_range (-1) none
        fun u hu v hv => hno u hu v hv
      rw [hbt, this] at hsome
      cases hsome
    obtain ⟨pre, t', post, v, heq, hres, hv, _, hpre, hpost⟩ :=
      selStep_foldl_argmax (candidateMeanF1 samples true_voicing a.extract_pitch)
        threshold_range (-1) none hex
    rw [hbt, hres] at hsome
    have ht' : t' = t := Option.some.inj hsome
    subst ht'
    refine ⟨pre, post, v, heq, hv, ?_, ?_⟩
    · intro u hu w hw
      rcases hpre u hu w hw with h1 | h1
      · have := candidateMeanF1_nonneg samples true_voicing a.extract_pitch u w hw
        linarith
      · exact h1
    · intro u hu w hw
      rw [heq] at hu
      rcases List.mem_append.mp hu with h1 | h1
      · rcases hpre u h1 w hw with h2 | h2
        · have := candidateMeanF1_nonneg samples true_voicing a.extract_pitch u w hw
          linarith
        · exact le_of_lt h2
      · rcases List.mem_cons.mp h1 with h2 | h2
        · subst h2
          rw [hv] at hw
          exact le_of_eq (Option.some.inj hw).symm
        · exact hpost u h2 w hw

/-- Witness for C2: a single algorithm whose extraction always fails
has no viable candidate, so it maps to `None`. -/
theorem C2_threshold_selection_witness :
    best_threshold [(0 : ℕ)] (fun _ => [true]) (fun _ _ => none) [1/10, 9/10] = none :=
  (C2_threshold_selection [(0 : ℕ)] (fun _ => [true])
    [⟨"algo", fun _ _ => none⟩] [1/10, 9/10] ⟨"algo", fun _ _ => none⟩
    (List.mem_singleton_self _)).2.1.mpr (fun _ _ => rfl)

/-- C9: when every file of the dataset is either skipped for an
entirely-false ground-truth voicing mask or fails during processing,
the algorithm's record is the fully populated all-NaN record with zero
counts; and each algorithm's entry of the multi-algorithm run depends
only on that algorithm and the dataset, so the other algorithms are
unaffected. -/
theorem C9_all_files_skipped :
    (∀ (algo : EvalAlgo) (dataset : List Sample),
      (∀ s ∈ dataset, s.voicing.any id = false ∨ algo s = none) →
      evalAlgo algo dataset = .ok nanAlgoResult) ∧
    (∀ (algos : List (String × EvalAlgo)) (dataset : List Sample) (i : ℕ),
      (evaluate_pitch_algorithms algos dataset)[i]? =
        (algos[i]?).map fun a => (a.1, evalAlgo a.2 dataset)) := by
  constructor
  · intro algo dataset h
    have hproc : processedFiles algo dataset = [] := by
      rw [processedFiles, List.filterMap_eq_nil_iff]
      intro s hs
      rcases h s hs with h1 | h1 <;> simp [h1]
    rw [evalAlgo, hproc]
    rfl
  · intro algos dataset i
    rw [evaluate_pitch_algorithms, List.getElem?_map]

/-- Witness for C9 at a concrete dataset and an always-failing
algorithm. -/
theorem C9_all_files_skipped_witness :
    evalAlgo (fun _ => none) [⟨[1], [true]⟩] = .ok nanAlgoResult :=
  C9_all_files_skipped.1 (fun _ => none) [⟨[1], [true]⟩] fun _ _ => Or.inr rfl

/-- Every defined field of an `evaluate_pitch_accuracy` result is a
frame fraction or a mean of nonnegative values: RPA lies in `[0,1]`
and cents error, octave-error rate and gross-error rate are
nonnegative. -/
theorem evaluate_pitch_accuracy_bounds (pitch_pred pitch_true : List ℝ)
    (valid_mask : List Bool) (epsilon gross_error_threshold : ℝ)
    (pm : PitchMetrics)
    (h : evaluate_pitch_accuracy pitch_pred pitch_true valid_mask epsilon
      gross_error_threshold = .ok pm) :
    (∀ v, pm.rpa = some v → 0 ≤ v ∧ v ≤ 1) ∧
    (∀ v, pm.cents_error = some v → 0 ≤ v) ∧
    (∀ v, pm.octave_error_rate = some v → 0 ≤ v) ∧
    (∀ v, pm.gross_error_rate = some v → 0 ≤ v) := by
  unfold evaluate_pitch_accuracy at h
  by_cases hlen : pitch_pred.length = pitch_true.length
  · simp only [hlen, ne_eq, not_true_eq_false, if_false] at h
    by_cases hm : valid_mask.any id
    · simp only [hm, if_true, Except.ok.injEq] at h
      subst h
      set pairs := maskedPairs pitch_pred pitch_true valid_mask with hpairs
      set cents := pairs.map fun x => centsDiff x.1 x.2 with hcents
      have hn0 : (0 : ℝ) ≤ (pairs.length : ℝ) := by positivity
      have hclen : cents.length = pairs.length := by rw [hcents, List.length_map]
      refine ⟨?_, ?_, ?_, ?_⟩
      · intro v hv
        obtain rfl : ((cents.countP fun c => decide (c < epsilon)) : ℝ) /
            (pairs.length : ℝ) = v := Option.some.inj hv
        constructor
        · positivity
        · rcases Nat.eq_zero_or_pos pairs.length with hz | hz
          · have : (cents.countP fun c => decide (c < epsilon)) = 0 := by
              have := List.countP_le_length (l := cents)
                (p := fun c => decide (c < epsilon))
              omega
            rw [this, hz]
            norm_num
          · have hpos : (0 : ℝ) < (pairs.length : ℝ) := by exact_mod_cast hz
            rw [div_le_one hpos]
            have hcount : (cents.countP fun c => decide (c < epsilon)) ≤ pairs.length := by
              have := List.countP_le_length (l := cents)
                (p := fun c => decide (c < epsilon))
              omega
            exact_mod_cast hcount
      · intro v hv
        obtain rfl : cents.sum / (pairs.length : ℝ) = v := Option.some.inj hv
        have hsum : 0 ≤ cents.sum := by
          apply List.sum_nonneg
          intro x hx
          obtain ⟨y, _, hy⟩ := List.mem_map.mp hx
          rw [← hy]
          exact abs_nonneg _
        positivity
      · intro v hv
        obtain rfl : ((pairs.countP fun x => octaveError x.1 x.2) : ℝ) /
            (pairs.length : ℝ) = v := Option.some.inj hv
        positivity
      · intro v hv
        obtain rfl : ((cents.countP fun c => decide (gross_error_threshold < c)) : ℝ) /
            (pairs.length : ℝ) = v := Option.some.inj hv
        positivity
    · simp only [hm, if_false, Bool.false_eq_true, Except.ok.injEq] at h
      subst h
      refine ⟨?_, ?_, ?_, ?_⟩ <;> exact fun v hv => by cases hv
  · rw [if_pos hlen] at h
    cases h

/-- The harmonic-mean combination of components that are at most one
whenever defined lies in `[0,1]`. -/
theorem combined_score_range (components : List (Option ℝ))
    (hub : ∀ c ∈ components, ∀ v, c = some v → v ≤ 1) :
    0 ≤ combined_score components ∧ combined_score components ≤ 1 := by
  unfold combined_score
  by_cases he : (valid_components components).isEmpty
  · simp [he]
  · simp only [he, if_false, Bool.false_eq_true]
    have hmem : ∀ c ∈ valid_components components, 0 < c ∧ c ≤ 1 := by
      intro c hc
      unfold valid_components at hc
      obtain ⟨hc1, hc2⟩ := List.mem_filter.mp hc
      refine ⟨of_decide_eq_true hc2, ?_⟩
      obtain ⟨o, ho, hoc⟩ := List.mem_filterMap.mp hc1
      exact hub o ho c hoc
    have hlenpos : 0 < (valid_components components).length := by
      cases hvc : valid_components components with
      | nil => rw [hvc] at he; simp at he
      | cons a l => simp
    have hsum_ge : ((valid_components components).length : ℝ) ≤
        ((valid_components components).map fun c => 1 / c).sum := by
      have h1 : ((valid_components components).map fun _ => (1 : ℝ)).sum ≤
          ((valid_components components).map fun c => 1 / c).sum := by
        apply List.sum_le_sum
        intro c hc
        obtain ⟨hc0, hc1⟩ := hmem c hc
        rw [le_div_iff₀ hc0]
        linarith
      have h2 : ((valid_components components).map fun _ => (1 : ℝ)).sum =
          ((valid_components components).length : ℝ) := by
        rw [List.map_const', List.sum_replicate, nsmul_eq_mul, mul_one]
      linarith
    have hsum_pos : 0 < ((valid_components components).map fun c => 1 / c).sum := by
      have : (0 : ℝ) < ((valid_components components).length : ℝ) := by
        exact_mod_cast hlenpos
      linarith
    constructor
    · positivity
    · rw [div_le_one hsum_pos]
      exact hsum_ge

/-- Precision and recall of a voicing evaluation never exceed one. -/
theorem evaluate_voicing_detection_le_one (pred_voiced true_voiced : List Bool) :
    (evaluate_voicing_detection pred_voiced true_voiced).precision ≤ 1 ∧
    (evaluate_voicing_detection pred_voiced true_voiced).recall ≤ 1 :=
  ⟨(metricsOfCounts_spec _ _ _).1.2, (metricsOfCounts_spec _ _ _).2.1.2⟩

/-- When at least one file survives and every processed file's
predicted pitch matches its true pitch in length, the evaluator
returns the assembled global record. -/
theorem evalAlgo_ok (algo : EvalAlgo) (dataset : List Sample)
    (h1 : (processedFiles algo dataset).isEmpty = false)
    (h2 : ∀ x ∈ processedFiles algo dataset, x.2.1.length = x.1.pitch.length) :
    ∃ pm : PitchMetrics,
      evaluate_pitch_accuracy
        ((processedFiles algo dataset).map fun x => x.2.1).flatten
        ((processedFiles algo dataset).map fun x => x.1.pitch).flatten
        ((processedFiles algo dataset).map fun x =>
          List.zipWith (fun a b => a && b) x.2.2 x.1.voicing).flatten
        50 200 = .ok pm ∧
      evalAlgo algo dataset = .ok
        { voicing_precision := some (evaluate_voicing_detection
            ((processedFiles algo dataset).map fun x => x.2.2).flatten
            ((processedFiles algo dataset).map fun x => x.1.voicing).flatten).precision
          voicing_recall := some (evaluate_voicing_detection
            ((processedFiles algo dataset).map fun x => x.2.2).flatten
            ((processedFiles algo dataset).map fun x => x.1.voicing).flatten).recall
          voicing_f1 := some (evaluate_voicing_detection
            ((processedFiles algo dataset).map fun x => x.2.2).flatten
            ((processedFiles algo dataset).map fun x => x.1.voicing).flatten).f1
          rmse := pm.rmse
          cents_error := pm.cents_error
          rpa := pm.rpa
          rca := pm.rca
          octave_error_rate := pm.octave_error_rate
          gross_error_rate := pm.gross_error_rate
          relative_smoothness := optMeanR ((processedFiles algo dataset).filterMap
            fun x => relative_smoothness x.2.1 x.2.2)
          continuity_breaks := optMeanQ ((processedFiles algo dataset).filterMap
            fun x => continuity_breaks x.2.2 x.1.voicing)
          combined_score := some (combined_score
            [pm.rpa,
             pm.cents_error.map fun c => Real.exp (-(c / 500)),
             some ((evaluate_voicing_detection
               ((processedFiles algo dataset).map fun x => x.2.2).flatten
               ((processedFiles algo dataset).map fun x => x.1.voicing).flatten).recall : ℝ),
             some ((evaluate_voicing_detection
               ((processedFiles algo dataset).map fun x => x.2.2).flatten
               ((processedFiles algo dataset).map fun x => x.1.voicing).flatten).precision : ℝ),
             pm.octave_error_rate.map fun x => Real.exp (-(x * 10)),
             pm.gross_error_rate.map fun x => Real.exp (-(x * 5))])
          num_files_processed := (processedFiles algo dataset).length
          total_frames := ((processedFiles algo dataset).map fun x => x.2.2).flatten.length } := by
  have hlen : ((processedFiles algo dataset).map fun x => x.2.1).flatten.length =
      ((processedFiles algo dataset).map fun x => x.1.pitch).flatten.length := by
    simp only [List.length_flatten, List.map_map, Function.comp]
    congr 1
    exact List.map_congr_left h2
  have hepa : ∃ pm, evaluate_pitch_accuracy
      ((processedFiles algo dataset).map fun x => x.2.1).flatten
      ((processedFiles algo dataset).map fun x => x.1.pitch).flatten
      ((processedFiles algo dataset).map fun x =>
        List.zipWith (fun a b => a && b) x.2.2 x.1.voicing).flatten
      50 200 = .ok pm := by
    unfold evaluate_pitch_accuracy
    rw [if_neg (by simp [hlen])]
    by_cases hm : ((processedFiles algo dataset).map fun x =>
        List.zipWith (fun a b => a && b) x.2.2 x.1.voicing).flatten.any id
    · rw [if_pos hm]
      exact ⟨_, rfl⟩
    · rw [if_neg (by simp [hm])]
      exact ⟨_, rfl⟩
  obtain ⟨pm, hpm⟩ := hepa
  refine ⟨pm, hpm, ?_⟩
  unfold evalAlgo
  simp only [h1, Bool.false_eq_true, if_false]
  rw [hpm]

/-- C1: on any run with at least one processed file (and length-
consistent predictions), the reported combined score is the harmonic
mean of the kept components of the reported metrics — components kept
when defined and strictly positive — and `0.0` when none qualifies;
in particular six components equal to `1` combine to `1.0`, and five
ones with a `0.01` combine to `6/105`. -/
theorem C1_combined_score_harmonic :
    (∀ (algo : EvalAlgo) (dataset : List Sample),
      (processedFiles algo dataset).isEmpty = false →
      (∀ x ∈ processedFiles algo dataset, x.2.1.length = x.1.pitch.length) →
      ∃ r, evalAlgo algo dataset = .ok r ∧
        r.combined_score = some
          (if (valid_components (componentsOf r)).isEmpty then 0
           else harmonicMean (valid_components (componentsOf r)))) ∧
    combined_score [some 1, some 1, some 1, some 1, some 1, some 1] = 1 ∧
    combined_score [some 1, some 1, some 1, some 1, some 1, some 0.01] = 6 / 105 := by
  refine ⟨?_, ?_, ?_⟩
  · intro algo dataset h1 h2
    obtain ⟨pm, hpm, hok⟩ := evalAlgo_ok algo dataset h1 h2
    refine ⟨_, hok, ?_⟩
    simp only [componentsOf, Option.map_some']
    rfl
  · have hvc : valid_components [some 1, some 1, some 1, some 1, some 1, some 1] =
        [1, 1, 1, 1, 1, 1] := by
      unfold valid_components
      norm_num [List.filterMap_cons, List.filter_cons]
    unfold combined_score
    rw [hvc]
    norm_num
  · have hvc : valid_components [some 1, some 1, some 1, some 1, some 1, some 0.01] =
        [1, 1, 1, 1, 1, 0.01] := by
      unfold valid_components
      norm_num [List.filterMap_cons, List.filter_cons]
    unfold combined_score
    rw [hvc]
    norm_num

/-- Witness for C1's run-level statement at a concrete one-file
dataset and an algorithm echoing the ground truth. -/
theorem C1_combined_score_harmonic_witness :
    ∃ r, evalAlgo (fun s => some (s.pitch, s.voicing))
        [⟨[100], [true]⟩] = .ok r ∧
      r.combined_score = some
        (if (valid_components (componentsOf r)).isEmpty then 0
         else harmonicMean (valid_components (componentsOf r))) :=
  C1_combined_score_harmonic.1 (fun s => some (s.pitch, s.voicing))
    [⟨[100], [true]⟩] rfl
    (by
      intro x hx
      have hp : processedFiles (fun s => some (s.pitch, s.voicing))
          [⟨[100], [true]⟩] =
          [(⟨[100], [true]⟩, ([100], [true]))] := rfl
      rw [hp, List.mem_singleton] at hx
      subst hx
      rfl)

/-- C10: on any run with at least one processed file (and length-
consistent predictions), the reported combined score lies in `[0,1]`:
every defined component is at most one, so the harmonic mean of the
kept components lies in `(0,1]`, and the fallback is `0.0`. -/
theorem C10_combined_score_range (algo : EvalAlgo) (dataset : List Sample)
    (h1 : (processedFiles algo dataset).isEmpty = false)
    (h2 : ∀ x ∈ processedFiles algo dataset, x.2.1.length = x.1.pitch.length) :
    ∃ r, evalAlgo algo dataset = .ok r ∧
      ∃ s, r.combined_score = some s ∧ 0 ≤ s ∧ s ≤ 1 := by
  obtain ⟨pm, hpm, hok⟩ := evalAlgo_ok algo dataset h1 h2
  refine ⟨_, hok, _, rfl, ?_⟩
  apply combined_score_range
  intro c hc v hv
  obtain ⟨hrpa, hcents, hoct, hgross⟩ :=
    evaluate_pitch_accuracy_bounds _ _ _ _ _ _ hpm
  simp only [List.mem_cons, List.not_mem_nil, or_false] at hc
  rcases hc with hc | hc | hc | hc | hc | hc
  · exact (hrpa v (hc ▸ hv)).2
  · rw [hc] at hv
    obtain ⟨ce, hce, hval⟩ := Option.map_eq_some'.mp hv
    rw [← hval]
    rw [Real.exp_le_one_iff]
    have := hcents ce hce
    have hd : 0 ≤ ce / 500 := by positivity
    linarith
  · rw [hc] at hv
    have hval := Option.some.inj hv
    rw [← hval]
    exact_mod_cast (evaluate_voicing_detection_le_one _ _).2
  · rw [hc] at hv
    have hval := Option.some.inj hv
    rw [← hval]
    exact_mod_cast (evaluate_voicing_detection_le_one _ _).1
  · rw [hc] at hv
    obtain ⟨oe, hoe, hval⟩ := Option.map_eq_some'.mp hv
    rw [← hval]
    rw [Real.exp_le_one_iff]
    have := hoct oe hoe
    nlinarith
  · rw [hc] at hv
    obtain ⟨ge, hge, hval⟩ := Option.map_eq_some'.mp hv
    rw [← hval]
    rw [Real.exp_le_one_iff]
    have := hgross ge hge
    nlinarith

/-- Witness for C10 at a concrete two-frame run. -/
theorem C10_combined_score_range_witness :
    ∃ r, evalAlgo (fun s => some (s.pitch, s.voicing))
        [⟨[200, 300], [true, false]⟩] = .ok r ∧
      ∃ s, r.combined_score = some s ∧ 0 ≤ s ∧ s ≤ 1 :=
  C10_combined_score_range (fun s => some (s.pitch, s.voicing))
    [⟨[200, 300], [true, false]⟩] rfl
    (by
      intro x hx
      have hp : processedFiles (fun s => some (s.pitch, s.voicing))
          [⟨[200, 300], [true, false]⟩] =
          [(⟨[200, 300], [true, false]⟩, ([200, 300], [true, false]))] := rfl
      rw [hp, List.mem_singleton] at hx
      subst hx
      rfl)

end PitchBenchmark
